import Mathlib

/-!
Formal model of the `dify-cron` Google Apps Script core, translated from the
TypeScript sources:

* `src/index.ts` — `isCronMatch` (cron field matcher) and
  `checkAndRunCronJobs` (scheduler loop);
* `src/sheetManager.ts` — `syncApps` (reconciler and row encoder) and
  `getAllRows` (row decoder);
* `src/types.ts` — `AppRow`, `DifyApp` and the `SHEET_COLUMNS` constants.

JavaScript strings are modelled as `String` / `List Char`; JavaScript numbers
appearing in the matcher are modelled as `Int` (all values reached by the
claims are integers; the `Number`/`parseInt` builtins are modelled on the
base-10 integer fragment, with every other input mapped to `none`, which the
matcher treats exactly like `NaN`: every comparison against it is false).
Sheet I/O is abstracted away: the reconciler is modelled as the pure function
from the previously persisted rows and the fetched apps to the row set that
`syncApps` writes back, and the scheduler loop as the list of external calls
(execution requests and last-run updates) that `checkAndRunCronJobs` issues.
-/

set_option autoImplicit false
set_option maxRecDepth 8192

namespace DifyCron

/-! ## JavaScript string and number primitives -/

/-- The JavaScript `StrWhiteSpace` characters trimmed by string-to-number
conversion: ASCII whitespace, the line terminators, NBSP, the Unicode space
separators, NNBSP, MMSP, the ideographic space and ZWNBSP. -/
def wsChars : List Char :=
  ['\t', '\n', '\u000B', '\u000C', '\r', ' ', '\u00A0', '\u1680', '\u2000',
    '\u2001', '\u2002', '\u2003', '\u2004', '\u2005', '\u2006', '\u2007',
    '\u2008', '\u2009', '\u200A', '\u2028', '\u2029', '\u202F', '\u205F',
    '\u3000', '\uFEFF']

/-- Whitespace recognised when JavaScript coerces strings to numbers
(`parseInt` / `Number` both trim it). -/
def isWs (c : Char) : Bool :=
  wsChars.contains c

/-- `l` contains the character `c` — models JavaScript `String.includes` for a
single-character needle. -/
def hasChar (l : List Char) (c : Char) : Bool :=
  l.any fun x => x = c

/-- JavaScript `String.split` with a single-character separator (no limit):
`"".split(c) = [""]`, and every separator occurrence opens a new chunk. -/
def splitOnChar (c : Char) : List Char → List (List Char)
  | [] => [[]]
  | x :: xs =>
    if x = c then [] :: splitOnChar c xs
    else
      match splitOnChar c xs with
      | r :: rs => (x :: r) :: rs
      | [] => [[x]]

/-- Numeric value of a list of decimal digits (most significant first). -/
def digitsVal (ds : List Char) : Nat :=
  ds.foldl (fun acc c => acc * 10 + (c.toNat - '0'.toNat)) 0

/-- Trim whitespace from both ends of a character list. -/
def trimWs (l : List Char) : List Char :=
  ((l.dropWhile isWs).reverse.dropWhile isWs).reverse

/-- JavaScript `Number.parseInt(s, 10)`: skip leading whitespace, read an
optional sign and then the longest prefix of decimal digits; `none` models
`NaN` (no digits found). -/
def jsParseInt (s : List Char) : Option Int :=
  match s.dropWhile isWs with
  | [] => none
  | c :: rest =>
    if c = '-' then
      let ds := rest.takeWhile Char.isDigit
      if ds = [] then none else some (-(digitsVal ds : Int))
    else if c = '+' then
      let ds := rest.takeWhile Char.isDigit
      if ds = [] then none else some (digitsVal ds : Int)
    else
      let ds := (c :: rest).takeWhile Char.isDigit
      if ds = [] then none else some (digitsVal ds : Int)

/-- Exact rational subtraction, written through `Rat.normalize` so that it
evaluates by reduction; provably equal to `a - b` (`ratSub_eq`). -/
def ratSub (a b : ℚ) : ℚ :=
  Rat.normalize (a.num * (b.den : Int) - b.num * (a.den : Int)) (a.den * b.den)
    (Nat.mul_ne_zero a.den_nz b.den_nz)

/-- Exact rational negation through `Rat.normalize`; equal to `-a`
(`ratNeg_eq`). -/
def ratNeg (a : ℚ) : ℚ :=
  Rat.normalize (-a.num) a.den a.den_nz

/-- Exact rational multiplication through `Rat.normalize`; equal to `a * b`
(`ratMul_eq`). -/
def ratMul (a b : ℚ) : ℚ :=
  Rat.normalize (a.num * b.num) (a.den * b.den) (Nat.mul_ne_zero a.den_nz b.den_nz)

/-- Exact rational division through `Rat.divInt`; equal to `a / b`
(`ratDiv_eq`). -/
def ratDiv (a b : ℚ) : ℚ :=
  Rat.divInt (a.num * (b.den : Int)) ((a.den : Int) * b.num)

/-- A JavaScript number as produced by `Number(string)`: a finite value, an
infinity, or `NaN`.  Finite doubles are modelled by exact rationals;
IEEE-754 rounding of literals needing more than 53 bits of precision is the
one remaining divergence of the model, and no claim depends on it. -/
inductive JsNum where
  | finite (q : ℚ)
  | posInf
  | negInf
  | nan
  deriving DecidableEq

/-- `dateValue >= x` for an integer and a JavaScript number (every comparison
against `NaN` is false). -/
def jsGe (v : Int) (x : JsNum) : Bool :=
  match x with
  | .finite q => decide (q ≤ (v : ℚ))
  | .posInf => false
  | .negInf => true
  | .nan => false

/-- `dateValue <= x` for an integer and a JavaScript number. -/
def jsLe (v : Int) (x : JsNum) : Bool :=
  match x with
  | .finite q => decide ((v : ℚ) ≤ q)
  | .posInf => true
  | .negInf => false
  | .nan => false

/-- `dateValue - x` for an integer and a JavaScript number. -/
def jsSubNum (v : Int) (x : JsNum) : JsNum :=
  match x with
  | .finite q => .finite (ratSub (v : ℚ) q)
  | .posInf => .negInf
  | .negInf => .posInf
  | .nan => .nan

/-- `x % n === 0` for a JavaScript number `x` and an integer step `n`:
`fmod` of a finite value is zero exactly on integer multiples of `n`, and is
`NaN` (hence not zero) on infinities and `NaN`. -/
def jsModZero (x : JsNum) (n : Int) : Bool :=
  match x with
  | .finite q => decide (q.den = 1 ∧ q.num % n = 0)
  | _ => false

/-- Hexadecimal digit test for `0x` literals. -/
def isHexDigitCh (c : Char) : Bool :=
  c.isDigit ∨ ('a' ≤ c ∧ c ≤ 'f') ∨ ('A' ≤ c ∧ c ≤ 'F')

/-- Value of a hexadecimal digit. -/
def hexDigitVal (c : Char) : Nat :=
  if c.isDigit then c.toNat - '0'.toNat
  else if 'a' ≤ c then c.toNat - 'a'.toNat + 10
  else c.toNat - 'A'.toNat + 10

/-- Value of a hexadecimal digit string. -/
def hexVal (ds : List Char) : Nat :=
  ds.foldl (fun acc c => acc * 16 + hexDigitVal c) 0

/-- Octal digit test for `0o` literals. -/
def isOctDigitCh (c : Char) : Bool :=
  '0' ≤ c ∧ c ≤ '7'

/-- Value of an octal digit string. -/
def octVal (ds : List Char) : Nat :=
  ds.foldl (fun acc c => acc * 8 + (c.toNat - '0'.toNat)) 0

/-- Binary digit test for `0b` literals. -/
def isBinDigitCh (c : Char) : Bool :=
  c = '0' ∨ c = '1'

/-- Value of a binary digit string. -/
def binVal (ds : List Char) : Nat :=
  ds.foldl (fun acc c => acc * 2 + (c.toNat - '0'.toNat)) 0

/-- The optional `ExponentPart` of a decimal literal: on `[]` the mantissa
stands alone; otherwise `e`/`E`, an optional sign and a non-empty digit
string scale it by the power of ten; anything else fails the literal. -/
def parseExpPart (l : List Char) (base : ℚ) : Option ℚ :=
  match l with
  | [] => some base
  | c :: r =>
    if c = 'e' ∨ c = 'E' then
      match r with
      | [] => none
      | d :: r2 =>
        if d = '-' then
          if r2 ≠ [] ∧ r2.all Char.isDigit then
            some (ratDiv base ((10 ^ digitsVal r2 : ℕ) : ℚ))
          else none
        else if d = '+' then
          if r2 ≠ [] ∧ r2.all Char.isDigit then
            some (ratMul base ((10 ^ digitsVal r2 : ℕ) : ℚ))
          else none
        else
          if (d :: r2).all Char.isDigit then
            some (ratMul base ((10 ^ digitsVal (d :: r2) : ℕ) : ℚ))
          else none
    else none

/-- An unsigned `StrUnsignedDecimalLiteral` without the `Infinity` form:
`DecimalDigits . DecimalDigits? ExponentPart?`, `. DecimalDigits
ExponentPart?` or `DecimalDigits ExponentPart?`; the whole input must be
consumed. -/
def parseDec (l : List Char) : Option ℚ :=
  let ip := l.takeWhile Char.isDigit
  let r1 := l.drop ip.length
  match r1 with
  | '.' :: r2 =>
    let fp := r2.takeWhile Char.isDigit
    let r3 := r2.drop fp.length
    if ip = [] ∧ fp = [] then none
    else parseExpPart r3 (ratDiv (digitsVal (ip ++ fp) : ℚ) ((10 ^ fp.length : ℕ) : ℚ))
  | _ => if ip = [] then none else parseExpPart r1 (digitsVal ip : ℚ)

/-- The characters of the `Infinity` keyword. -/
def infinityChars : List Char :=
  ['I', 'n', 'f', 'i', 'n', 'i', 't', 'y']

/-- JavaScript `Number(s)` per the `StrNumericLiteral` grammar: whitespace is
trimmed; the empty string converts to `0`; unsigned `0x`/`0o`/`0b` literals
convert in their base; otherwise an optional sign applies to `Infinity` or to
a decimal literal (integer part, optional fraction, optional exponent); any
other input is `NaN`. -/
def jsNumber (s : List Char) : JsNum :=
  let t := trimWs s
  if t = [] then .finite 0
  else if t.take 2 = ['0', 'x'] ∨ t.take 2 = ['0', 'X'] then
    let ds := t.drop 2
    if ds ≠ [] ∧ ds.all isHexDigitCh then .finite (hexVal ds : ℚ) else .nan
  else if t.take 2 = ['0', 'o'] ∨ t.take 2 = ['0', 'O'] then
    let ds := t.drop 2
    if ds ≠ [] ∧ ds.all isOctDigitCh then .finite (octVal ds : ℚ) else .nan
  else if t.take 2 = ['0', 'b'] ∨ t.take 2 = ['0', 'B'] then
    let ds := t.drop 2
    if ds ≠ [] ∧ ds.all isBinDigitCh then .finite (binVal ds : ℚ) else .nan
  else
    match t with
    | [] => .finite 0
    | c :: rest =>
      if c = '-' then
        if rest = infinityChars then .negInf
        else
          match parseDec rest with
          | some q => .finite (ratNeg q)
          | none => .nan
      else if c = '+' then
        if rest = infinityChars then .posInf
        else
          match parseDec rest with
          | some q => .finite q
          | none => .nan
      else
        if c :: rest = infinityChars then .posInf
        else
          match parseDec (c :: rest) with
          | some q => .finite q
          | none => .nan

/-- The specification's reading of a term endpoint (§4.1: "all parsing is
base-10 integer parsing", together with the recorded `Number('') == 0`
behaviour): whitespace-trimmed, the empty string is `0`, an optionally
signed non-empty digit string is its value, and anything else fails.  This
is the claim-side parser; the source's endpoint parser is `jsNumber`. -/
def intNumber (s : List Char) : Option Int :=
  match trimWs s with
  | [] => some 0
  | c :: rest =>
    if c = '-' then
      if rest ≠ [] ∧ rest.all Char.isDigit then some (-(digitsVal rest : Int)) else none
    else if c = '+' then
      if rest ≠ [] ∧ rest.all Char.isDigit then some (digitsVal rest : Int) else none
    else
      if (c :: rest).all Char.isDigit then some (digitsVal (c :: rest) : Int) else none

/-- JavaScript string `a || b` (the left operand unless it is the empty,
hence falsy, string). -/
def jsStrOr (a b : String) : String :=
  if a = "" then b else a

/-! ## Data model (`src/types.ts`) -/

/-- One persisted sheet row, `AppRow` from `src/types.ts`. -/
structure AppRow where
  enabled : Bool
  id : String
  name : String
  description : String
  apiSecret : String
  cronMinutes : String
  cronHours : String
  cronDayOfMonth : String
  cronMonth : String
  cronDayOfWeek : String
  args : String
  lastSync : String
  lastRun : String
  deriving DecidableEq

/-- One remote application, `DifyApp` from `src/types.ts`. -/
structure DifyApp where
  id : String
  name : String
  description : String
  deriving DecidableEq

/-- The component readings of a JavaScript `Date` used by `isCronMatch`:
`getMinutes`, `getHours`, `getDate`, `getMonth` (0-based, January = 0) and
`getDay` (0 = Sunday). -/
structure JsDate where
  minutes : Int
  hours : Int
  date : Int
  month : Int
  day : Int
  deriving DecidableEq

/-! ## Cron matcher (`src/index.ts`, `isCronMatch`) -/

/-- One comma-separated term of a cron field, evaluated against one integer
date component — the body of the `some` callback inside `isCronMatch`
(`src/index.ts` lines 163–187).  `Int.tmod` is JavaScript's `%` (remainder
with the sign of the dividend). -/
def cronPartMatches (part : List Char) (dateValue : Int) : Bool :=
  if hasChar part '/' then
    let range := (splitOnChar '/' part).getD 0 []
    let stepStr := (splitOnChar '/' part).getD 1 []
    match jsParseInt stepStr with
    | none => false
    | some step =>
      if step ≤ 0 then false
      else if range = ['*'] then decide (Int.tmod dateValue step = 0)
      else if hasChar range '-' then
        jsGe dateValue (jsNumber ((splitOnChar '-' range).getD 0 [])) &&
          jsLe dateValue (jsNumber ((splitOnChar '-' range).getD 1 [])) &&
            jsModZero
              (jsSubNum dateValue (jsNumber ((splitOnChar '-' range).getD 0 [])))
              step
      else false
  else if hasChar part '-' then
    jsGe dateValue (jsNumber ((splitOnChar '-' part).getD 0 [])) &&
      jsLe dateValue (jsNumber ((splitOnChar '-' part).getD 1 []))
  else
    match jsParseInt part with
    | some n => decide (n = dateValue)
    | none => false

/-- One whole cron field against one date component: empty or `"*"` matches
unconditionally, otherwise the field is split on commas and at least one term
must match (one iteration of the `for` loop in `isCronMatch`). -/
def cronFieldMatches (cronValue : String) (dateValue : Int) : Bool :=
  if cronValue = "" ∨ cronValue = "*" then true
  else (splitOnChar ',' cronValue.toList).any fun part => cronPartMatches part dateValue

/-- The `for` loop of `isCronMatch` over the zipped field/value pairs, with
its early `return false`. -/
def cronLoop : List (String × Int) → Bool
  | [] => true
  | (cv, dv) :: rest =>
    if cv = "" ∨ cv = "*" then cronLoop rest
    else if (splitOnChar ',' cv.toList).any (fun part => cronPartMatches part dv) then
      cronLoop rest
    else false

/-- `isCronMatch` from `src/index.ts`: the five cron fields of the row against
minute, hour, day-of-month, month (`getMonth() + 1`) and day-of-week. -/
def isCronMatch (date : JsDate) (cronConfig : AppRow) : Bool :=
  cronLoop (List.zip
    [cronConfig.cronMinutes, cronConfig.cronHours, cronConfig.cronDayOfMonth,
      cronConfig.cronMonth, cronConfig.cronDayOfWeek]
    [date.minutes, date.hours, date.date, date.month + 1, date.day])

example : cronFieldMatches "0-59/5" 35 = true := by decide
example : cronFieldMatches "0-59/5" 36 = false := by decide
example : cronFieldMatches "5,10,15" 10 = true := by decide
example : cronFieldMatches "abc" 3 = false := by decide
example : cronPartMatches ('-' :: ['5']) 3 = true := by decide
example : cronPartMatches ('-' :: ['5']) 6 = false := by decide
example : cronFieldMatches "*/15" 30 = true := by decide
example : cronFieldMatches "10-5" 7 = false := by decide

/-! ## Reconciler (`src/sheetManager.ts`, `syncApps`) -/

/-- The lookup map `existingRowMap : Map<string, AppRow>` is modelled by its
observable behaviour, a function from keys to optional rows (the code never
iterates over the map, it only calls `get`, `set` and `delete`). -/
def mapSet (m : String → Option AppRow) (k : String) (v : AppRow) :
    String → Option AppRow :=
  fun k' => if k' = k then some v else m k'

/-- `Map.delete`. -/
def mapDelete (m : String → Option AppRow) (k : String) : String → Option AppRow :=
  fun k' => if k' = k then none else m k'

/-- One step of the map-building loop in `syncApps`: a row is registered only
when its `id` is truthy (non-empty). -/
def rowMapInsert (m : String → Option AppRow) (row : AppRow) : String → Option AppRow :=
  if row.id ≠ "" then mapSet m row.id row else m

/-- `existingRowMap` after the first loop of `syncApps`
(`src/sheetManager.ts` lines 276–281). -/
def buildRowMap (rows : List AppRow) : String → Option AppRow :=
  rows.foldl rowMapInsert (fun _ => none)

/-- The merged row `syncApps` produces for a remote app whose id matched an
existing row (`src/sheetManager.ts` lines 290–298). -/
def updatedRow (existing : AppRow) (app : DifyApp) (now : String) : AppRow :=
  { existing with
    name := app.name
    description := jsStrOr app.description ""
    apiSecret := ""
    lastSync := now }

/-- The fresh default row `syncApps` produces for a remote app with no
matching existing row (`src/sheetManager.ts` lines 299–316). -/
def newRow (app : DifyApp) (now : String) : AppRow :=
  { enabled := false
    id := app.id
    name := app.name
    description := jsStrOr app.description ""
    apiSecret := ""
    cronMinutes := ""
    cronHours := ""
    cronDayOfMonth := ""
    cronMonth := ""
    cronDayOfWeek := ""
    args := ""
    lastSync := now
    lastRun := "" }

/-- The second loop of `syncApps` (`src/sheetManager.ts` lines 287–320): for
each fetched app, in order, emit the updated or fresh row and delete the
consumed id from the lookup map. -/
def mergeApps (m : String → Option AppRow) (apps : List DifyApp) (now : String) :
    List AppRow :=
  match apps with
  | [] => []
  | app :: rest =>
    (match m app.id with
      | some row => updatedRow row app now
      | none => newRow app now) :: mergeApps (mapDelete m app.id) rest now

/-- The row set `syncApps` persists, as a function of the rows previously in
the sheet, the fetched apps and the sync timestamp: if the fetch is empty the
function returns early and the sheet keeps `existingRows`; otherwise the sheet
is cleared and `mergedData` is written in full. -/
def syncAppsRows (existingRows : List AppRow) (apps : List DifyApp) (now : String) :
    List AppRow :=
  if apps.length = 0 then existingRows
  else mergeApps (buildRowMap existingRows) apps now

/-! ## Row codec (`src/sheetManager.ts`, `getAllRows` and the write half of
`syncApps`) -/

/-- A sheet cell as produced by the encoder: a string or a checkbox boolean. -/
inductive CellValue where
  | str (s : String)
  | bool (b : Bool)
  deriving DecidableEq

/-- JavaScript `String(v)` on the modelled cell values. -/
def jsToString : CellValue → String
  | .str s => s
  | .bool b => if b then "true" else "false"

/-- JavaScript truthiness of a cell value (`Boolean(v)`). -/
def jsTruthy : CellValue → Bool
  | .str s => s ≠ ""
  | .bool b => b

/-- `String(v || '')` — the conversion `getAllRows` applies to every string
column. -/
def jsCellOrEmptyStr (v : CellValue) : String :=
  jsToString (if jsTruthy v then v else .str "")

/-- `#getColumnIndex`: `headers.indexOf(name)`, with `-1` modelled as `none`. -/
def headerIndex : List String → String → Option Nat
  | [], _ => none
  | h :: t, n => if h = n then some 0 else (headerIndex t n).map (· + 1)

/-- `getColumnValue` inside `getAllRows`: the cell under the named column, or
`''` when the column is missing or out of range. -/
def getCell (headers : List String) (cells : List CellValue) (name : String) :
    CellValue :=
  match headerIndex headers name with
  | some i => cells.getD i (.str "")
  | none => .str ""

/-- `setColumnValue` inside `syncApps`: write the value under the named
column when the column exists and the index is in range. -/
def setCol (headers : List String) (vals : List CellValue) (name : String)
    (v : CellValue) : List CellValue :=
  match headerIndex headers name with
  | some i => if i < vals.length then vals.set i v else vals
  | none => vals

/-- The thirteen `SHEET_COLUMNS` names from `src/types.ts`. -/
def colEnabled : String := "Enabled"
def colID : String := "ID"
def colName : String := "Name"
def colDescription : String := "Description"
def colAPISecret : String := "API Secret"
def colCronMinutes : String := "Cron Minutes"
def colCronHours : String := "Cron Hours"
def colCronDayOfMonth : String := "Cron Day of Month"
def colCronMonth : String := "Cron Month"
def colCronDayOfWeek : String := "Cron Day of Week"
def colArgs : String := "Args"
def colLastSync : String := "Last Sync"
def colLastRun : String := "Last Run"

/-- All thirteen column names, in `SHEET_COLUMNS` declaration order. -/
def columnNames : List String :=
  [colEnabled, colID, colName, colDescription, colAPISecret, colCronMinutes,
    colCronHours, colCronDayOfMonth, colCronMonth, colCronDayOfWeek, colArgs,
    colLastSync, colLastRun]

/-- The thirteen `setColumnValue` writes of `syncApps`
(`src/sheetManager.ts` lines 354–366), in source order, with the cell value
each one writes. -/
def encodeFields (row : AppRow) : List (String × CellValue) :=
  [(colEnabled, .bool row.enabled),
    (colID, .str row.id),
    (colName, .str row.name),
    (colDescription, .str row.description),
    (colAPISecret, .str row.apiSecret),
    (colCronMinutes, .str row.cronMinutes),
    (colCronHours, .str row.cronHours),
    (colCronDayOfMonth, .str row.cronDayOfMonth),
    (colCronMonth, .str row.cronMonth),
    (colCronDayOfWeek, .str row.cronDayOfWeek),
    (colArgs, .str row.args),
    (colLastSync, .str row.lastSync),
    (colLastRun, .str row.lastRun)]

/-- The raw cell row `syncApps` writes for one `AppRow`: an array of
`headers.length` empty strings, then the thirteen column writes in order. -/
def encodeRow (headers : List String) (row : AppRow) : List CellValue :=
  (encodeFields row).foldl (fun vals p => setCol headers vals p.1 p.2)
    (List.replicate headers.length (.str ""))

/-- The cell-to-field mapping of `getAllRows`
(`src/sheetManager.ts` lines 203–225). -/
def decodeRow (headers : List String) (cells : List CellValue) : AppRow :=
  { enabled := jsTruthy (getCell headers cells colEnabled)
    id := jsCellOrEmptyStr (getCell headers cells colID)
    name := jsCellOrEmptyStr (getCell headers cells colName)
    description := jsCellOrEmptyStr (getCell headers cells colDescription)
    apiSecret := jsCellOrEmptyStr (getCell headers cells colAPISecret)
    cronMinutes := jsCellOrEmptyStr (getCell headers cells colCronMinutes)
    cronHours := jsCellOrEmptyStr (getCell headers cells colCronHours)
    cronDayOfMonth := jsCellOrEmptyStr (getCell headers cells colCronDayOfMonth)
    cronMonth := jsCellOrEmptyStr (getCell headers cells colCronMonth)
    cronDayOfWeek := jsCellOrEmptyStr (getCell headers cells colCronDayOfWeek)
    args := jsCellOrEmptyStr (getCell headers cells colArgs)
    lastSync := jsCellOrEmptyStr (getCell headers cells colLastSync)
    lastRun := jsCellOrEmptyStr (getCell headers cells colLastRun) }

/-! ## Scheduler loop (`src/index.ts`, `checkAndRunCronJobs`) -/

/-- An execution request issued to the `DifyClient` collaborator: either
`executeWorkflowWithApiKey(id, apiKey, inputs, 'blocking', user)` or
`executeWorkflow(id, inputs)` under admin credentials. -/
inductive ExecCall (π : Type) where
  | withKey (appId apiKey : String) (inputs : π) (responseMode user : String)
  | admin (appId : String) (inputs : π)
  deriving DecidableEq

/-- An observable external effect of one scheduler pass: an execution request
or a `updateLastRun(appId, runTime)` write. -/
inductive CronEvent (π : Type) where
  | exec (call : ExecCall π)
  | recordLastRun (appId : String) (runTime : String)
  deriving DecidableEq

/-- `row.args ? JSON.parse(row.args) : {}` — the payload for one row, where
`jsonParse` models `JSON.parse` (returning `none` where it would throw) and
`emptyObj` is the literal `{}`. -/
def argsPayload {π : Type} (jsonParse : String → Option π) (emptyObj : π)
    (row : AppRow) : Option π :=
  if row.args = "" then some emptyObj else jsonParse row.args

/-- The execution request built for one due row: the API-key call when
`row.apiSecret` is truthy, the admin call otherwise
(`src/index.ts` lines 214–227). -/
def execCallFor {π : Type} (row : AppRow) (inputs : π) : ExecCall π :=
  if row.apiSecret ≠ "" then
    ExecCall.withKey row.id row.apiSecret inputs "blocking" ("cron-job-" ++ row.id)
  else
    ExecCall.admin row.id inputs

/-- The `for` loop of `checkAndRunCronJobs` (`src/index.ts` lines 206–238) as
the list of external calls it issues.  `execOk` tells whether a given
execution request succeeds; a parse failure or a failed request is caught by
the per-row `try`/`catch`, which skips `updateLastRun` and continues with the
next row. -/
def runCronRows {π : Type} (jsonParse : String → Option π) (emptyObj : π)
    (execOk : ExecCall π → Bool) (now : JsDate) (runTime : String) :
    List AppRow → List (CronEvent π)
  | [] => []
  | row :: rest =>
    let tail := runCronRows jsonParse emptyObj execOk now runTime rest
    if row.enabled = false then tail
    else if isCronMatch now row then
      match argsPayload jsonParse emptyObj row with
      | none => tail
      | some inputs =>
        CronEvent.exec (execCallFor row inputs) ::
          (if execOk (execCallFor row inputs) then
            CronEvent.recordLastRun row.id runTime :: tail
          else tail)
    else tail

/-! ## Claim-side predicates -/

/-- The term semantics stated by the specification (§4.1), over the code's
term decomposition: a stepped term needs a positive integer step and is a
stepped wildcard or a stepped range; a plain range matches the closed
interval of its parsed endpoints (an inverted range is empty, a parse failure
matches nothing); a single-value term matches the value it parses to, and a
non-numeric term matches nothing. -/
def specTermMatches (t : List Char) (v : Int) : Prop :=
  if hasChar t '/' then
    ∃ n : Int, jsParseInt ((splitOnChar '/' t).getD 1 []) = some n ∧ 0 < n ∧
      (((splitOnChar '/' t).getD 0 [] = ['*'] ∧ v % n = 0) ∨
        ((splitOnChar '/' t).getD 0 [] ≠ ['*'] ∧
          hasChar ((splitOnChar '/' t).getD 0 []) '-' = true ∧
          ∃ a b : Int,
            intNumber ((splitOnChar '-' ((splitOnChar '/' t).getD 0 [])).getD 0 []) = some a ∧
            intNumber ((splitOnChar '-' ((splitOnChar '/' t).getD 0 [])).getD 1 []) = some b ∧
            a ≤ v ∧ v ≤ b ∧ (v - a) % n = 0))
  else if hasChar t '-' then
    ∃ a b : Int,
      intNumber ((splitOnChar '-' t).getD 0 []) = some a ∧
      intNumber ((splitOnChar '-' t).getD 1 []) = some b ∧
      a ≤ v ∧ v ≤ b
  else
    ∃ n : Int, jsParseInt t = some n ∧ n = v

/-- A term endpoint outside the model's divergence zone: JavaScript `Number`
and the specification's base-10 integer reading either both fail (`NaN`) or
both yield the same integer. -/
def numAgrees (u : List Char) : Bool :=
  match jsNumber u, intNumber u with
  | .nan, none => true
  | .finite q, some n => q == (n : ℚ)
  | _, _ => false

/-- All four endpoint components the term matcher can examine (the `-`-split
of the `/`-range and of the whole term) agree with the integer reading. -/
def termEndpointsAgree (t : List Char) : Bool :=
  numAgrees ((splitOnChar '-' ((splitOnChar '/' t).getD 0 [])).getD 0 []) &&
    numAgrees ((splitOnChar '-' ((splitOnChar '/' t).getD 0 [])).getD 1 []) &&
    numAgrees ((splitOnChar '-' t).getD 0 []) &&
    numAgrees ((splitOnChar '-' t).getD 1 [])

/-! ## Helper lemmas -/

/-- JavaScript's remainder (`tmod`) vanishes exactly when the mathematical
remainder does. -/
theorem tmod_zero_iff (a n : Int) : Int.tmod a n = 0 ↔ a % n = 0 := by
  rw [← Int.dvd_iff_tmod_eq_zero, Int.dvd_iff_emod_eq_zero]

/-- `ratSub` is subtraction on `ℚ`. -/
theorem ratSub_eq (a b : ℚ) : ratSub a b = a - b := by
  rw [ratSub, Rat.sub_def]

/-- `ratNeg` is negation on `ℚ`. -/
theorem ratNeg_eq (a : ℚ) : ratNeg a = -a := by
  rw [ratNeg, Rat.neg_def]
  rw [Rat.normalize_eq_mkRat a.den_nz, Rat.mkRat_eq_divInt]

/-- `ratMul` is multiplication on `ℚ`. -/
theorem ratMul_eq (a b : ℚ) : ratMul a b = a * b := by
  rw [ratMul, Rat.mul_def]

/-- `ratDiv` is division on `ℚ`. -/
theorem ratDiv_eq (a b : ℚ) : ratDiv a b = a / b := by
  rw [ratDiv, Rat.divInt_eq_div]
  rcases eq_or_ne b 0 with hb | hb
  · subst hb; simp
  · have hbn : (b.num : ℚ) ≠ 0 := by exact_mod_cast Rat.num_ne_zero.2 hb
    have had : ((a.den : ℚ)) ≠ 0 := by exact_mod_cast a.den_nz
    push_cast
    conv_rhs => rw [← Rat.num_div_den a, ← Rat.num_div_den b]
    field_simp

/-- `ratSub` on integer casts is the cast of the integer difference. -/
theorem ratSub_cast (v na : Int) :
    ratSub (v : ℚ) (na : ℚ) = ((v - na : Int) : ℚ) := by
  rw [ratSub_eq]
  push_cast
  ring

/-- Unfolding an endpoint-agreement fact: either both parsers fail, or both
produce the same integer. -/
theorem numAgrees_cases {u : List Char} (h : numAgrees u = true) :
    (jsNumber u = JsNum.nan ∧ intNumber u = none) ∨
      ∃ n : Int, jsNumber u = JsNum.finite (n : ℚ) ∧ intNumber u = some n := by
  unfold numAgrees at h
  cases hV : jsNumber u with
  | finite q =>
    rw [hV] at h
    cases hI : intNumber u with
    | none => rw [hI] at h; simp at h
    | some n =>
      rw [hI] at h
      simp only [beq_iff_eq] at h
      exact Or.inr ⟨n, by rw [h], rfl⟩
  | posInf =>
    rw [hV] at h
    cases hI : intNumber u with
    | none => rw [hI] at h; simp at h
    | some n => rw [hI] at h; simp at h
  | negInf =>
    rw [hV] at h
    cases hI : intNumber u with
    | none => rw [hI] at h; simp at h
    | some n => rw [hI] at h; simp at h
  | nan =>
    cases hI : intNumber u with
    | none => exact Or.inl ⟨rfl, rfl⟩
    | some n => rw [hV, hI] at h; simp at h

/-- On a term all of whose endpoint components agree with the base-10
integer reading, the code's term matcher coincides with the specification's
term semantics. -/
theorem cronPartMatches_iff_spec (t : List Char) (v : Int)
    (hag : termEndpointsAgree t = true) :
    cronPartMatches t v = true ↔ specTermMatches t v := by
  simp only [termEndpointsAgree, Bool.and_eq_true] at hag
  obtain ⟨⟨⟨hA, hB⟩, hC⟩, hD⟩ := hag
  simp only [cronPartMatches, specTermMatches]
  by_cases h1 : hasChar t '/' = true
  · rw [if_pos h1, if_pos h1]
    generalize (splitOnChar '/' t).getD 1 [] = stepStr
    generalize hR : (splitOnChar '/' t).getD 0 [] = range at hA hB ⊢
    cases hjp : jsParseInt stepStr with
    | none => simp
    | some step =>
      simp only [Option.some.injEq, exists_eq_left']
      by_cases h2 : step ≤ 0
      · rw [if_pos h2]
        simp only [Bool.false_eq_true, false_iff, not_and]
        intro hlt
        exact absurd hlt (not_lt.mpr h2)
      · rw [if_neg h2]
        have hpos : 0 < step := lt_of_not_le h2
        by_cases h3 : range = ['*']
        · rw [if_pos h3]
          simp [h3, hpos, tmod_zero_iff]
        · rw [if_neg h3]
          by_cases h4 : hasChar range '-' = true
          · rw [if_pos h4]
            generalize (splitOnChar '-' range).getD 0 [] = aStr at hA ⊢
            generalize (splitOnChar '-' range).getD 1 [] = bStr at hB ⊢
            rcases numAgrees_cases hA with ⟨hVa, hIa⟩ | ⟨na, hVa, hIa⟩ <;>
              rcases numAgrees_cases hB with ⟨hVb, hIb⟩ | ⟨nb, hVb, hIb⟩
            · simp [hVa, hVb, hIa, hIb, jsGe, h3]
            · simp [hVa, hVb, hIa, hIb, jsGe, h3]
            · simp [hVa, hVb, hIa, hIb, jsGe, jsLe, h3]
            · rw [hVa, hVb, hIa, hIb]
              simp only [jsGe, jsLe, jsSubNum, ratSub_cast, jsModZero,
                Rat.den_intCast, Rat.num_intCast, Bool.and_eq_true,
                decide_eq_true_eq, Int.cast_le, Option.some.injEq]
              constructor
              · rintro ⟨⟨hle1, hle2⟩, -, hmod⟩
                exact ⟨hpos, Or.inr ⟨h3, h4, na, nb, rfl, rfl, hle1, hle2, hmod⟩⟩
              · rintro ⟨-, ⟨hstar, -⟩ | ⟨-, -, a, b, ha2, hb2, hle1, hle2, hmod⟩⟩
                · exact absurd hstar h3
                · obtain rfl := ha2
                  obtain rfl := hb2
                  exact ⟨⟨hle1, hle2⟩, trivial, hmod⟩
          · simp [h3, h4]
  · rw [if_neg h1, if_neg h1]
    by_cases h2 : hasChar t '-' = true
    · rw [if_pos h2, if_pos h2]
      generalize (splitOnChar '-' t).getD 0 [] = aStr at hC ⊢
      generalize (splitOnChar '-' t).getD 1 [] = bStr at hD ⊢
      rcases numAgrees_cases hC with ⟨hVa, hIa⟩ | ⟨na, hVa, hIa⟩ <;>
        rcases numAgrees_cases hD with ⟨hVb, hIb⟩ | ⟨nb, hVb, hIb⟩
      · simp [hVa, hVb, hIa, hIb, jsGe]
      · simp [hVa, hVb, hIa, hIb, jsGe]
      · simp [hVa, hVb, hIa, hIb, jsGe, jsLe]
      · rw [hVa, hVb, hIa, hIb]
        simp only [jsGe, jsLe, Bool.and_eq_true, decide_eq_true_eq,
          Int.cast_le, Option.some.injEq]
        constructor
        · rintro ⟨hle1, hle2⟩
          exact ⟨na, nb, rfl, rfl, hle1, hle2⟩
        · rintro ⟨a, b, ha2, hb2, hle1, hle2⟩
          obtain rfl := ha2
          obtain rfl := hb2
          exact ⟨hle1, hle2⟩
    · rw [if_neg h2, if_neg h2]
      cases hn : jsParseInt t with
      | none => simp
      | some n => simp

/-- One step of the `isCronMatch` loop is the conjunction of the field match
and the rest of the loop. -/
theorem cronLoop_cons (cv : String) (dv : Int) (rest : List (String × Int)) :
    cronLoop ((cv, dv) :: rest) = (cronFieldMatches cv dv && cronLoop rest) := by
  simp only [cronLoop, cronFieldMatches]
  by_cases h : cv = "" ∨ cv = "*"
  · simp [h]
  · rw [if_neg h, if_neg h]
    cases hany : (splitOnChar ',' cv.toList).any fun part => cronPartMatches part dv <;>
      simp

/-- `hasChar` decides membership. -/
theorem hasChar_iff {l : List Char} {c : Char} : hasChar l c = true ↔ c ∈ l := by
  simp only [hasChar, List.any_eq_true, decide_eq_true_eq]
  constructor
  · rintro ⟨x, hx, rfl⟩
    exact hx
  · intro h
    exact ⟨c, h, rfl⟩

/-- `hasChar` is false exactly on non-members. -/
theorem hasChar_eq_false {l : List Char} {c : Char} : hasChar l c = false ↔ c ∉ l := by
  rw [← Bool.not_eq_true, hasChar_iff]

/-- Splitting a list that contains no separator yields the single chunk. -/
theorem splitOnChar_no_sep (c : Char) (l : List Char) (h : ∀ x ∈ l, x ≠ c) :
    splitOnChar c l = [l] := by
  induction l with
  | nil => rfl
  | cons x xs ih =>
    have hx : ¬x = c := h x (List.mem_cons_self x xs)
    rw [splitOnChar, if_neg hx, ih fun y hy => h y (List.mem_cons_of_mem x hy)]

/-- A digit is not whitespace. -/
theorem not_isWs_of_isDigit {c : Char} (h : c.isDigit = true) : isWs c = false := by
  unfold isWs
  cases hcon : wsChars.contains c
  · rfl
  · exfalso
    have hmem : c ∈ wsChars := List.mem_of_elem_eq_true hcon
    simp only [wsChars] at hmem
    fin_cases hmem <;> exact absurd h (by decide)

/-- `dropWhile isWs` is the identity on all-digit lists. -/
theorem dropWhile_isWs_digits {l : List Char} (h : ∀ c ∈ l, c.isDigit = true) :
    l.dropWhile isWs = l := by
  cases l with
  | nil => rfl
  | cons c rest =>
    rw [List.dropWhile_cons, not_isWs_of_isDigit (h c (List.mem_cons_self c rest))]
    simp

/-- Trimming whitespace is the identity on all-digit lists. -/
theorem trimWs_digits {ds : List Char} (h : ∀ c ∈ ds, c.isDigit = true) :
    trimWs ds = ds := by
  unfold trimWs
  rw [dropWhile_isWs_digits h,
    dropWhile_isWs_digits fun c hc => h c (List.mem_reverse.mp hc),
    List.reverse_reverse]

/-- `takeWhile` keeps a list all of whose elements satisfy the predicate. -/
theorem takeWhile_eq_self_of_all {p : Char → Bool} :
    ∀ (l : List Char), (∀ c ∈ l, p c = true) → l.takeWhile p = l := by
  intro l
  induction l with
  | nil => intro _; rfl
  | cons c rest ih =>
    intro h
    rw [List.takeWhile_cons, h c (List.mem_cons_self c rest)]
    simp [ih fun x hx => h x (List.mem_cons_of_mem c hx)]

/-- A digit-headed, digit-tailed list never starts with a `0x`-style radix
prefix. -/
theorem take2_ne_prefix {c : Char} {rest : List Char} {x : Char}
    (_hc : c.isDigit = true) (hrest : ∀ d ∈ rest, d.isDigit = true)
    (hx : x.isDigit = false) : ¬(c :: rest).take 2 = ['0', x] := by
  cases rest with
  | nil => simp
  | cons d r =>
    intro heq
    simp only [List.take_succ_cons, List.take_zero, List.cons.injEq, and_true] at heq
    have hd : d.isDigit = true := hrest d (List.mem_cons_self d r)
    rw [heq.2, hx] at hd
    exact Bool.noConfusion hd

/-- A decimal literal that is a bare non-empty digit string parses to its
value. -/
theorem parseDec_digits {l : List Char} (hne : l ≠ [])
    (h : ∀ c ∈ l, c.isDigit = true) : parseDec l = some (digitsVal l : ℚ) := by
  simp only [parseDec]
  rw [takeWhile_eq_self_of_all l h, List.drop_length]
  dsimp only
  rw [if_neg hne]
  rfl

/-- `Number` converts a non-empty digit string to its decimal value. -/
theorem jsNumber_digits {ds : List Char} (hne : ds ≠ [])
    (h : ∀ c ∈ ds, c.isDigit = true) :
    jsNumber ds = JsNum.finite (digitsVal ds : ℚ) := by
  obtain ⟨c, rest, rfl⟩ := List.exists_cons_of_ne_nil hne
  have hc : c.isDigit = true := h c (List.mem_cons_self c rest)
  have hrest : ∀ d ∈ rest, d.isDigit = true := fun d hd =>
    h d (List.mem_cons_of_mem c hd)
  have hno : ∀ x : Char, x.isDigit = false → ¬(c :: rest).take 2 = ['0', x] :=
    fun x hx => take2_ne_prefix hc hrest hx
  have hx1 : ¬((c :: rest).take 2 = ['0', 'x'] ∨ (c :: rest).take 2 = ['0', 'X']) := by
    rintro (h1 | h1)
    · exact hno 'x' (by decide) h1
    · exact hno 'X' (by decide) h1
  have ho1 : ¬((c :: rest).take 2 = ['0', 'o'] ∨ (c :: rest).take 2 = ['0', 'O']) := by
    rintro (h1 | h1)
    · exact hno 'o' (by decide) h1
    · exact hno 'O' (by decide) h1
  have hb1 : ¬((c :: rest).take 2 = ['0', 'b'] ∨ (c :: rest).take 2 = ['0', 'B']) := by
    rintro (h1 | h1)
    · exact hno 'b' (by decide) h1
    · exact hno 'B' (by decide) h1
  have hcm : ¬c = '-' := by rintro rfl; exact absurd hc (by decide)
  have hcp : ¬c = '+' := by rintro rfl; exact absurd hc (by decide)
  have hinf : ¬(c :: rest = infinityChars) := by
    intro he
    simp only [infinityChars] at he
    injection he with hch _
    rw [hch] at hc
    exact absurd hc (by decide)
  simp only [jsNumber]
  rw [trimWs_digits h]
  rw [if_neg (List.cons_ne_nil c rest), if_neg hx1, if_neg ho1, if_neg hb1]
  dsimp only
  rw [if_neg hcm, if_neg hcp, if_neg hinf, parseDec_digits (List.cons_ne_nil c rest) h]

/-! ## Claims about the cron matcher -/

/-- Counterexample to C3 as stated: the source parses range endpoints with
JavaScript `Number`, which accepts `Infinity` (as well as fractional,
exponent and hexadecimal forms), so the field `0-Infinity` matches the value
0 — while under the claim's base-10-integer term semantics the term is
non-numeric and should match nothing. -/
theorem cronField_numparse_cex :
    cronFieldMatches "0-Infinity" 0 = true ∧
      ∀ t ∈ splitOnChar ',' ("0-Infinity").toList, ¬specTermMatches t 0 := by
  refine ⟨by decide, ?_⟩
  intro t ht
  rw [show splitOnChar ',' ("0-Infinity").toList = [("0-Infinity").toList] from
    by decide] at ht
  rw [List.mem_singleton] at ht
  subst ht
  simp only [specTermMatches]
  rw [if_neg (by decide), if_pos (by decide)]
  rintro ⟨a, b, -, hb, -, -⟩
  rw [show intNumber ((splitOnChar '-' ("0-Infinity").toList).getD 1 []) = none from
    by decide] at hb
  exact Option.noConfusion hb

/-- C3 (amended): for every integer value and every comma-separated field
expression (other than the unconditional `""` and `"*"` forms) all of whose
terms' range-endpoint components agree with the base-10 integer reading
(each is empty, an optionally signed integer literal, or fails `Number`
parsing outright), the field matcher returns true iff at least one term
matches under the specification's term semantics: a single integer matches
iff it parses to the value, a plain range `a-b` matches iff `a ≤ v ≤ b` (an
inverted range matches nothing), a stepped wildcard `*/n` matches iff
`v % n = 0`, a stepped range `a-b/n` matches iff `a ≤ v ≤ b` and
`(v - a) % n = 0`, and a term with a non-positive step, a bare value with
`/`, or a non-numeric term matches nothing.  Endpoints `Number` parses to
non-integer or infinite values fall outside the equivalence (see the
counterexample). -/
theorem cronField_iff_some_term (e : String) (v : Int) (h1 : e ≠ "") (h2 : e ≠ "*")
    (h3 : ∀ t ∈ splitOnChar ',' e.toList, termEndpointsAgree t = true) :
    cronFieldMatches e v = true ↔
      ∃ t ∈ splitOnChar ',' e.toList, specTermMatches t v := by
  unfold cronFieldMatches
  rw [if_neg (by simp [h1, h2])]
  rw [List.any_eq_true]
  constructor
  · rintro ⟨t, ht, hm⟩
    exact ⟨t, ht, (cronPartMatches_iff_spec t v (h3 t ht)).mp hm⟩
  · rintro ⟨t, ht, hm⟩
    exact ⟨t, ht, (cronPartMatches_iff_spec t v (h3 t ht)).mpr hm⟩

/-- Witness for the amended C3 at the specification's own example
`matches("0-59/5", 35)`. -/
theorem cronField_iff_some_term_witness :
    cronFieldMatches "0-59/5" 35 = true ↔
      ∃ t ∈ splitOnChar ',' ("0-59/5").toList, specTermMatches t 35 :=
  cronField_iff_some_term "0-59/5" 35 (by decide) (by decide) (by decide)

/-- C4: the field matcher is a total Boolean-valued function of the raw
expression string and the value — for every string it returns `true` or
`false` rather than raising — and malformed terms (a non-numeric term, a
non-positive step, a bare value combined with `/`) match nothing. -/
theorem cronField_total (e : String) (v : Int) :
    (cronFieldMatches e v = true ∨ cronFieldMatches e v = false) ∧
      cronFieldMatches "abc" v = false ∧
      cronFieldMatches "1-5/0" v = false ∧
      cronFieldMatches "1-5/x" v = false ∧
      cronFieldMatches "7/2" v = false := by
  refine ⟨?_, rfl, rfl, rfl, rfl⟩
  cases h : cronFieldMatches e v
  · exact Or.inr rfl
  · exact Or.inl rfl

/-- C7: `isCronMatch` is the conjunction of the five field matches against
minute, hour, day-of-month, month (`getMonth() + 1`, so 1–12) and day-of-week
(0 = Sunday); in particular an all-`"*"` or all-empty schedule is due at
every instant. -/
theorem isCronMatch_eq_five_fields (d : JsDate) (cfg : AppRow) :
    isCronMatch d cfg =
        (cronFieldMatches cfg.cronMinutes d.minutes &&
          cronFieldMatches cfg.cronHours d.hours &&
          cronFieldMatches cfg.cronDayOfMonth d.date &&
          cronFieldMatches cfg.cronMonth (d.month + 1) &&
          cronFieldMatches cfg.cronDayOfWeek d.day) ∧
      isCronMatch d { cfg with cronMinutes := "*", cronHours := "*", cronDayOfMonth := "*", cronMonth := "*", cronDayOfWeek := "*" } = true ∧
      isCronMatch d { cfg with cronMinutes := "", cronHours := "", cronDayOfMonth := "", cronMonth := "", cronDayOfWeek := "" } = true := by
  refine ⟨?_, rfl, rfl⟩
  simp only [isCronMatch, List.zip_cons_cons, List.zip_nil_right, cronLoop_cons]
  simp [cronLoop, Bool.and_assoc]

/-- C10: a term of the form `-b` with `b` a non-empty digit string is not
rejected: splitting on `-` yields an empty start component, `Number("")`
converts it to `0`, and the term matches exactly the values `0 ≤ v ≤ b`. -/
theorem cronPart_leading_hyphen (v : Int) (ds : List Char) (hne : ds ≠ [])
    (hdig : ∀ c ∈ ds, c.isDigit = true) :
    cronPartMatches ('-' :: ds) v = decide (0 ≤ v ∧ v ≤ (digitsVal ds : Int)) := by
  have hslash : hasChar ('-' :: ds) '/' = false := by
    rw [hasChar_eq_false]
    intro hmem
    rcases List.mem_cons.mp hmem with h | h
    · exact absurd h (by decide)
    · exact absurd (hdig _ h) (by decide)
  have hnosep : ∀ x ∈ ds, x ≠ '-' := by
    intro x hx
    rintro rfl
    exact absurd (hdig _ hx) (by decide)
  have hsplit : splitOnChar '-' ('-' :: ds) = [[], ds] := by
    rw [splitOnChar, if_pos rfl, splitOnChar_no_sep '-' ds hnosep]
  have hdash : hasChar ('-' :: ds) '-' = true :=
    hasChar_iff.mpr (List.mem_cons_self _ _)
  have g0 : (splitOnChar '-' ('-' :: ds)).getD 0 [] = [] := by rw [hsplit]; rfl
  have g1 : (splitOnChar '-' ('-' :: ds)).getD 1 [] = ds := by rw [hsplit]; rfl
  simp only [cronPartMatches, hslash, hdash, g0, g1, Bool.false_eq_true, if_false,
    if_true]
  rw [show jsNumber [] = JsNum.finite 0 from rfl, jsNumber_digits hne hdig]
  simp only [jsGe, jsLe, Bool.decide_and]
  congr 1
  · rw [decide_eq_decide]
    exact_mod_cast Iff.rfl
  · rw [decide_eq_decide]
    exact_mod_cast Iff.rfl

/-- Witness for C10 at the term `-5` and the value `3`. -/
theorem cronPart_leading_hyphen_witness :
    cronPartMatches ('-' :: ['5']) 3 = decide (0 ≤ (3 : Int) ∧ (3 : Int) ≤ (digitsVal ['5'] : Int)) :=
  cronPart_leading_hyphen 3 ['5'] (by decide) (by decide)

/-- Pointwise behaviour of `mapSet`. -/
theorem mapSet_apply (m : String → Option AppRow) (k : String) (v : AppRow)
    (k' : String) : mapSet m k v k' = if k' = k then some v else m k' := rfl

/-- Pointwise behaviour of `mapDelete`. -/
theorem mapDelete_apply (m : String → Option AppRow) (k k' : String) :
    mapDelete m k k' = if k' = k then none else m k' := rfl

/-- Pointwise behaviour of `rowMapInsert`. -/
theorem rowMapInsert_apply (m : String → Option AppRow) (x : AppRow) (k' : String) :
    rowMapInsert m x k' = if x.id ≠ "" then mapSet m x.id x k' else m k' := by
  unfold rowMapInsert
  split <;> rfl

/-- Inserting rows whose ids all differ from `k` does not change the lookup
at `k`. -/
theorem foldl_rowMapInsert_ne (rows : List AppRow) :
    ∀ (m : String → Option AppRow) (k : String), (∀ r ∈ rows, r.id ≠ k) →
      (rows.foldl rowMapInsert m) k = m k := by
  induction rows with
  | nil => intro m k _; rfl
  | cons x xs ih =>
    intro m k h
    rw [List.foldl_cons, ih _ k fun r hr => h r (List.mem_cons_of_mem x hr)]
    have hxk : ¬k = x.id := fun hk => h x (List.mem_cons_self x xs) hk.symm
    simp [rowMapInsert_apply, mapSet_apply, hxk]

/-- When every row carrying id `k` in the remaining list equals `r`, folding
the list keeps the lookup at `k` equal to `some r` (re-inserting `r` is
harmless, other ids do not touch `k`). -/
theorem foldl_rowMapInsert_stable (rows : List AppRow) :
    ∀ (m : String → Option AppRow) (k : String) (r : AppRow), m k = some r →
      (∀ r' ∈ rows, r'.id = k → r' = r) →
      (rows.foldl rowMapInsert m) k = some r := by
  induction rows with
  | nil => intro m k r hm _; exact hm
  | cons x xs ih =>
    intro m k r hm huniq
    rw [List.foldl_cons]
    refine ih _ k r ?_ fun r' hr' => huniq r' (List.mem_cons_of_mem x hr')
    rw [rowMapInsert_apply]
    by_cases hx : x.id ≠ ""
    · rw [if_pos hx, mapSet_apply]
      by_cases hkx : k = x.id
      · rw [if_pos hkx, huniq x (List.mem_cons_self x xs) hkx.symm]
      · rw [if_neg hkx]
        exact hm
    · rw [if_neg hx]
      exact hm

/-- After folding the whole row list, a row with a non-empty id carried by no
other row of the list is found under its id. -/
theorem foldl_rowMapInsert_mem (rows : List AppRow) :
    ∀ (m : String → Option AppRow) (r : AppRow), r ∈ rows → r.id ≠ "" →
      (∀ r' ∈ rows, r'.id = r.id → r' = r) →
      (rows.foldl rowMapInsert m) r.id = some r := by
  induction rows with
  | nil => intro m r h; exact absurd h (List.not_mem_nil r)
  | cons x xs ih =>
    intro m r hmem hid huniq
    rw [List.foldl_cons]
    rcases List.mem_cons.mp hmem with rfl | hmem2
    · refine foldl_rowMapInsert_stable xs _ r.id r ?_
        fun r' hr' => huniq r' (List.mem_cons_of_mem r hr')
      rw [rowMapInsert_apply, if_pos hid, mapSet_apply, if_pos rfl]
    · exact ih _ r hmem2 hid fun r' hr' h => huniq r' (List.mem_cons_of_mem x hr') h

/-- `buildRowMap` finds a non-blank-id row whose id no other row carries
under its id. -/
theorem buildRowMap_mem (rows : List AppRow) (r : AppRow) (hmem : r ∈ rows)
    (hid : r.id ≠ "") (huniq : ∀ r' ∈ rows, r'.id = r.id → r' = r) :
    buildRowMap rows r.id = some r :=
  foldl_rowMapInsert_mem rows _ r hmem hid huniq

/-- `buildRowMap` fails on an id carried by no row. -/
theorem buildRowMap_not_mem (rows : List AppRow) (k : String)
    (h : ∀ r ∈ rows, r.id ≠ k) : buildRowMap rows k = none :=
  foldl_rowMapInsert_ne rows _ k h

/-- Every row stored in the fold is stored under its own id. -/
theorem foldl_rowMapInsert_id (rows : List AppRow) :
    ∀ (m : String → Option AppRow), (∀ k r, m k = some r → r.id = k) →
      ∀ k r, (rows.foldl rowMapInsert m) k = some r → r.id = k := by
  induction rows with
  | nil => intro m hm; exact hm
  | cons x xs ih =>
    intro m hm
    rw [List.foldl_cons]
    refine ih _ ?_
    intro k r hk
    rw [rowMapInsert_apply] at hk
    by_cases hx : x.id ≠ ""
    · rw [if_pos hx, mapSet_apply] at hk
      by_cases hkx : k = x.id
      · rw [if_pos hkx] at hk
        cases hk
        exact hkx.symm
      · rw [if_neg hkx] at hk
        exact hm k r hk
    · rw [if_neg hx] at hk
      exact hm k r hk

/-- Every row stored in `buildRowMap` is stored under its own id. -/
theorem buildRowMap_id (rows : List AppRow) :
    ∀ k r, buildRowMap rows k = some r → r.id = k :=
  foldl_rowMapInsert_id rows _ fun _ _ hk => Option.noConfusion hk

/-- Deletion preserves the id invariant of the lookup map. -/
theorem mapDelete_id (m : String → Option AppRow) (k0 : String)
    (h : ∀ k r, m k = some r → r.id = k) :
    ∀ k r, mapDelete m k0 k = some r → r.id = k := by
  intro k r hk
  rw [mapDelete_apply] at hk
  by_cases hkk : k = k0
  · rw [if_pos hkk] at hk
    exact Option.noConfusion hk
  · rw [if_neg hkk] at hk
    exact h k r hk

/-- `mergeApps` produces one row per fetched app. -/
theorem mergeApps_length (apps : List DifyApp) :
    ∀ (m : String → Option AppRow) (now : String),
      (mergeApps m apps now).length = apps.length := by
  induction apps with
  | nil => intro m now; rfl
  | cons a rest ih =>
    intro m now
    simp [mergeApps, ih]

/-- The row produced for the first occurrence of a matched id is the updated
existing row. -/
theorem mergeApps_get_updated (apps : List DifyApp) :
    ∀ (i : Nat) (a : DifyApp) (m : String → Option AppRow) (r : AppRow)
      (now : String), apps[i]? = some a → m a.id = some r →
      (∀ j, j < i → ∀ b, apps[j]? = some b → b.id ≠ a.id) →
      (mergeApps m apps now)[i]? = some (updatedRow r a now) := by
  induction apps with
  | nil =>
    intro i a m r now h
    simp at h
  | cons x rest ih =>
    intro i a m r now hi hm hfirst
    cases i with
    | zero =>
      simp only [List.getElem?_cons_zero, Option.some.injEq] at hi
      subst hi
      simp [mergeApps, hm]
    | succ n =>
      have hx : x.id ≠ a.id := hfirst 0 (Nat.succ_pos n) x (by simp)
      have hm' : mapDelete m x.id a.id = some r := by
        rw [mapDelete_apply, if_neg fun h => hx h.symm]
        exact hm
      simp only [mergeApps, List.getElem?_cons_succ]
      refine ih n a _ r now (by simpa using hi) hm' ?_
      intro j hj b hb
      exact hfirst (j + 1) (Nat.succ_lt_succ hj) b (by simpa using hb)

/-- The row produced for an unmatched id is the fresh default row. -/
theorem mergeApps_get_new (apps : List DifyApp) :
    ∀ (i : Nat) (a : DifyApp) (m : String → Option AppRow) (now : String),
      apps[i]? = some a → m a.id = none →
      (mergeApps m apps now)[i]? = some (newRow a now) := by
  induction apps with
  | nil =>
    intro i a m now h
    simp at h
  | cons x rest ih =>
    intro i a m now hi hm
    cases i with
    | zero =>
      simp only [List.getElem?_cons_zero, Option.some.injEq] at hi
      subst hi
      simp [mergeApps, hm]
    | succ n =>
      have hm' : mapDelete m x.id a.id = none := by
        rw [mapDelete_apply]
        split
        · rfl
        · exact hm
      simp only [mergeApps, List.getElem?_cons_succ]
      exact ih n a _ now (by simpa using hi) hm'

/-- The row produced at position `i` carries the id of the app at `i`. -/
theorem mergeApps_get_id (apps : List DifyApp) :
    ∀ (i : Nat) (a : DifyApp) (m : String → Option AppRow) (now : String),
      apps[i]? = some a → (∀ k r, m k = some r → r.id = k) →
      ∃ r', (mergeApps m apps now)[i]? = some r' ∧ r'.id = a.id := by
  induction apps with
  | nil =>
    intro i a m now h
    simp at h
  | cons x rest ih =>
    intro i a m now hi hminv
    cases i with
    | zero =>
      simp only [List.getElem?_cons_zero, Option.some.injEq] at hi
      subst hi
      cases hm : m x.id with
      | some r =>
        exact ⟨updatedRow r x now, by simp [mergeApps, hm], hminv x.id r hm⟩
      | none =>
        exact ⟨newRow x now, by simp [mergeApps, hm], rfl⟩
    | succ n =>
      simp only [mergeApps, List.getElem?_cons_succ]
      exact ih n a _ now (by simpa using hi) (mapDelete_id m x.id hminv)

/-- Every row `mergeApps` produces carries the id of some fetched app. -/
theorem mergeApps_mem (apps : List DifyApp) :
    ∀ (m : String → Option AppRow) (now : String) (r' : AppRow),
      r' ∈ mergeApps m apps now → (∀ k r, m k = some r → r.id = k) →
      ∃ a ∈ apps, r'.id = a.id := by
  induction apps with
  | nil =>
    intro m now r' h
    simp [mergeApps] at h
  | cons x rest ih =>
    intro m now r' hmem hminv
    rw [mergeApps] at hmem
    rcases List.mem_cons.mp hmem with heq | hmem2
    · refine ⟨x, List.mem_cons_self x rest, ?_⟩
      cases hm : m x.id with
      | some row =>
        simp only [hm] at heq
        rw [heq]
        exact hminv x.id row hm
      | none =>
        simp only [hm] at heq
        rw [heq]
        rfl
    · obtain ⟨a, ha, hid⟩ := ih _ now r' hmem2 (mapDelete_id m x.id hminv)
      exact ⟨a, List.mem_cons_of_mem x ha, hid⟩

/-- `a || ''` is the identity on JavaScript strings. -/
theorem jsStrOr_empty (s : String) : jsStrOr s "" = s := by
  by_cases h : s = ""
  · rw [jsStrOr, if_pos h, h]
  · rw [jsStrOr, if_neg h]

/-! ## Claims about the reconciler -/

/-- C1: reconciling any existing rows with an empty remote app list returns
the existing rows unchanged — the sync pass bails out before touching the
sheet, so no row is modified or deleted. -/
theorem syncApps_empty_guard (existingRows : List AppRow) (now : String) :
    syncAppsRows existingRows [] now = existingRows := rfl

/-- An existing row whose id is blank, used to exhibit the failure of C2 as
stated: `syncApps` registers only rows with a truthy (non-empty) id in its
lookup map, so a blank-id row is never matched. -/
def rowBlankId : AppRow :=
  { enabled := true, id := "", name := "Old", description := "od",
    apiSecret := "k", cronMinutes := "5", cronHours := "x", cronDayOfMonth := "x",
    cronMonth := "x", cronDayOfWeek := "1", args := "a", lastSync := "s0",
    lastRun := "r0" }

/-- A fetched app whose id is the same blank string. -/
def appBlankId : DifyApp := { id := "", name := "New", description := "D" }

/-- Counterexample to C2 as stated: with an existing row and a remote app
that share the id `""`, the reconciled row set contains only the fresh
default row, whose `enabled` is `false` although the pre-existing row had
`enabled = true` — the pre-existing row's user fields are not preserved. -/
theorem syncApps_blankId_cex :
    rowBlankId.id = appBlankId.id ∧ rowBlankId.enabled = true ∧
      ∀ row ∈ syncAppsRows [rowBlankId] [appBlankId] "T", row.enabled = false := by
  decide

/-- C2 (amended): for every existing row whose id is non-empty and not
shared with any other existing row, matched by the remote app at the first
occurrence of that id in the fetched list, the reconciled row at that
position is the existing row with `name` and `description` taken from the
remote app, `apiSecret` forced to the empty string, `lastSync` set to `now`,
and `enabled`, the five schedule fields, `args` and `lastRun` unchanged. -/
theorem syncApps_preserves_matched (existingRows : List AppRow)
    (apps : List DifyApp) (now : String) (r : AppRow) (a : DifyApp) (i : Nat)
    (huniq : ∀ r' ∈ existingRows, r'.id = r.id → r' = r) (hmem : r ∈ existingRows)
    (hid : r.id ≠ "") (hi : apps[i]? = some a) (hra : a.id = r.id)
    (hfirst : ∀ j, j < i → ∀ b, apps[j]? = some b → b.id ≠ a.id) :
    (syncAppsRows existingRows apps now)[i]? =
      some { r with name := a.name, description := a.description, apiSecret := "", lastSync := now } := by
  have hne : apps ≠ [] := by rintro rfl; simp at hi
  unfold syncAppsRows
  rw [if_neg (by simpa using hne)]
  have hm : buildRowMap existingRows a.id = some r := by
    rw [hra]
    exact buildRowMap_mem existingRows r hmem hid huniq
  rw [mergeApps_get_updated apps i a (buildRowMap existingRows) r now hi hm hfirst]
  unfold updatedRow
  rw [jsStrOr_empty]

/-- A well-formed existing row used to witness the amended C2. -/
def rowA1 : AppRow :=
  { enabled := true, id := "a1", name := "Old", description := "od",
    apiSecret := "k", cronMinutes := "5", cronHours := "x", cronDayOfMonth := "x",
    cronMonth := "x", cronDayOfWeek := "1", args := "a", lastSync := "s0",
    lastRun := "r0" }

/-- The matching fetched app for the witness. -/
def appA1 : DifyApp := { id := "a1", name := "New", description := "D" }

/-- Witness for the amended C2 at a concrete matched row. -/
theorem syncApps_preserves_matched_witness :
    (syncAppsRows [rowA1] [appA1] "T")[0]? =
      some { rowA1 with name := "New", description := "D", apiSecret := "", lastSync := "T" } :=
  syncApps_preserves_matched [rowA1] [appA1] "T" rowA1 appA1 0 (by decide)
    (by simp) (by decide) rfl rfl (fun j hj => absurd hj (Nat.not_lt_zero j))

/-- C8: for a non-empty fetch, the reconciled set has exactly one row per
remote app, in fetch order, each carrying that app's id; an app whose id
matches no existing row yields the default row (disabled, empty schedule,
args, secret and last-run, `lastSync = now`); and every existing row whose id
is absent from the fetch is dropped from the persisted set. -/
theorem syncApps_nonempty_shape (existingRows : List AppRow)
    (apps : List DifyApp) (now : String) (hne : apps ≠ []) :
    (syncAppsRows existingRows apps now).length = apps.length ∧
      (∀ (i : Nat) (a : DifyApp), apps[i]? = some a →
        ∃ r' : AppRow, (syncAppsRows existingRows apps now)[i]? = some r' ∧
          r'.id = a.id) ∧
      (∀ (i : Nat) (a : DifyApp), apps[i]? = some a → (∀ r ∈ existingRows, r.id ≠ a.id) →
        ∃ r' : AppRow, (syncAppsRows existingRows apps now)[i]? = some r' ∧
          r'.enabled = false ∧ r'.cronMinutes = "" ∧ r'.cronHours = "" ∧
          r'.cronDayOfMonth = "" ∧ r'.cronMonth = "" ∧ r'.cronDayOfWeek = "" ∧
          r'.args = "" ∧ r'.apiSecret = "" ∧ r'.lastRun = "" ∧
          r'.lastSync = now) ∧
      (∀ r0 ∈ existingRows, (∀ a ∈ apps, a.id ≠ r0.id) →
        ∀ r' ∈ syncAppsRows existingRows apps now, r'.id ≠ r0.id) := by
  unfold syncAppsRows
  rw [if_neg (by simpa using hne)]
  refine ⟨mergeApps_length apps _ now, ?_, ?_, ?_⟩
  · intro i a hi
    exact mergeApps_get_id apps i a _ now hi (buildRowMap_id existingRows)
  · intro i a hi habs
    exact ⟨newRow a now,
      mergeApps_get_new apps i a _ now hi (buildRowMap_not_mem existingRows a.id habs),
      rfl, rfl, rfl, rfl, rfl, rfl, rfl, rfl, rfl, rfl⟩
  · intro r0 h0 hnot r' hr' heq
    obtain ⟨a, ha, hid⟩ := mergeApps_mem apps _ now r' hr' (buildRowMap_id existingRows)
    exact hnot a ha (by rw [← hid, heq])

/-- A fetched app with no matching existing row, for the C8 witness. -/
def appW : DifyApp := { id := "w1", name := "W", description := "WD" }

/-- Witness for C8: reconciling an empty sheet with one fetched app yields
exactly one row. -/
theorem syncApps_nonempty_shape_witness :
    (syncAppsRows [] [appW] "T").length = [appW].length :=
  (syncApps_nonempty_shape [] [appW] "T" (by decide)).1

/-! ## Row codec lemmas -/

/-- A found header index is in range. -/
theorem headerIndex_lt (hs : List String) (n : String) :
    ∀ i, headerIndex hs n = some i → i < hs.length := by
  induction hs with
  | nil => intro i h; exact Option.noConfusion h
  | cons x t ih =>
    intro i hi
    rw [headerIndex] at hi
    by_cases hx : x = n
    · rw [if_pos hx] at hi
      cases hi
      simp
    · rw [if_neg hx] at hi
      cases hj : headerIndex t n with
      | none => rw [hj] at hi; exact Option.noConfusion hi
      | some j =>
        rw [hj] at hi
        simp only [Option.map_some', Option.some.injEq] at hi
        subst hi
        have := ih j hj
        simp only [List.length_cons]
        omega

/-- The header at a found index is the looked-up name. -/
theorem headerIndex_get (hs : List String) (n : String) :
    ∀ i, headerIndex hs n = some i → hs[i]? = some n := by
  induction hs with
  | nil => intro i h; exact Option.noConfusion h
  | cons x t ih =>
    intro i hi
    rw [headerIndex] at hi
    by_cases hx : x = n
    · rw [if_pos hx] at hi
      cases hi
      simp [hx]
    · rw [if_neg hx] at hi
      cases hj : headerIndex t n with
      | none => rw [hj] at hi; exact Option.noConfusion hi
      | some j =>
        rw [hj] at hi
        simp only [Option.map_some', Option.some.injEq] at hi
        subst hi
        simpa using ih j hj

/-- A present column name has a header index. -/
theorem headerIndex_mem (hs : List String) (n : String) (h : n ∈ hs) :
    ∃ i, headerIndex hs n = some i := by
  induction hs with
  | nil => cases h
  | cons x t ih =>
    rw [headerIndex]
    by_cases hx : x = n
    · exact ⟨0, by rw [if_pos hx]⟩
    · have hmem : n ∈ t := by
        rcases List.mem_cons.mp h with h1 | h1
        · exact absurd h1.symm hx
        · exact h1
      obtain ⟨j, hj⟩ := ih hmem
      exact ⟨j + 1, by rw [if_neg hx, hj]; rfl⟩

/-- Distinct column names have distinct header indices. -/
theorem headerIndex_ne (hs : List String) (n n' : String) (i i' : Nat)
    (h : headerIndex hs n = some i) (h' : headerIndex hs n' = some i')
    (hnn : n ≠ n') : i ≠ i' := by
  intro heq
  subst heq
  have h1 := headerIndex_get hs n i h
  have h2 := headerIndex_get hs n' i h'
  rw [h1] at h2
  exact hnn (Option.some.inj h2)

/-- `setCol` preserves the row width. -/
theorem setCol_length (hs : List String) (vals : List CellValue) (n : String)
    (v : CellValue) : (setCol hs vals n v).length = vals.length := by
  unfold setCol
  cases headerIndex hs n with
  | none => rfl
  | some i =>
    dsimp only
    by_cases hi : i < vals.length
    · rw [if_pos hi, List.length_set]
    · rw [if_neg hi]

/-- Writes under other column names do not disturb the cell at index `i`. -/
theorem foldl_setCol_skip (hs : List String) (pairs : List (String × CellValue)) :
    ∀ (vals : List CellValue) (n : String) (i : Nat), headerIndex hs n = some i →
      (∀ p ∈ pairs, p.1 ≠ n) →
      (pairs.foldl (fun vals p => setCol hs vals p.1 p.2) vals)[i]? = vals[i]? := by
  induction pairs with
  | nil => intros; rfl
  | cons q rest ih =>
    intro vals n i hi hne
    rw [List.foldl_cons, ih _ n i hi fun p hp => hne p (List.mem_cons_of_mem q hp)]
    unfold setCol
    cases hq : headerIndex hs q.1 with
    | none => rfl
    | some j =>
      dsimp only
      have hji : j ≠ i :=
        headerIndex_ne hs q.1 n j i hq hi (hne q (List.mem_cons_self q rest))
      by_cases hj : j < vals.length
      · rw [if_pos hj]
        exact List.getElem?_set_ne hji
      · rw [if_neg hj]

/-- After the column writes of one row, a written cell holds its value,
provided the written names are distinct and the row is as wide as the
header. -/
theorem foldl_setCol_find (hs : List String) (pairs : List (String × CellValue)) :
    ∀ (vals : List CellValue) (n : String) (v : CellValue) (i : Nat),
      (n, v) ∈ pairs → (pairs.map Prod.fst).Nodup → headerIndex hs n = some i →
      vals.length = hs.length →
      (pairs.foldl (fun vals p => setCol hs vals p.1 p.2) vals)[i]? = some v := by
  induction pairs with
  | nil => intro vals n v i h; cases h
  | cons q rest ih =>
    intro vals n v i hmem hnd hi hlen
    rw [List.map_cons, List.nodup_cons] at hnd
    rw [List.foldl_cons]
    rcases List.mem_cons.mp hmem with rfl | hmem2
    · rw [foldl_setCol_skip hs rest _ n i hi ?_]
      · unfold setCol
        rw [hi]
        dsimp only
        rw [if_pos (hlen ▸ headerIndex_lt hs n i hi)]
        exact List.getElem?_set_self (by rw [hlen]; exact headerIndex_lt hs n i hi)
      · intro p hp hpn
        have hp1 : p.1 ∈ rest.map Prod.fst := List.mem_map_of_mem Prod.fst hp
        rw [hpn] at hp1
        exact hnd.1 hp1
    · refine ih _ n v i hmem2 hnd.2 hi ?_
      rw [setCol_length]
      exact hlen

/-- The names written by the encoder are the thirteen column names. -/
theorem encodeFields_names (row : AppRow) :
    (encodeFields row).map Prod.fst = columnNames := rfl

/-- Reading a written column back from an encoded row returns the written
cell. -/
theorem getCell_encodeRow (hs : List String) (row : AppRow) (n : String)
    (v : CellValue) (hmem : (n, v) ∈ encodeFields row) (hn : n ∈ hs) :
    getCell hs (encodeRow hs row) n = v := by
  obtain ⟨i, hi⟩ := headerIndex_mem hs n hn
  have hnd : ((encodeFields row).map Prod.fst).Nodup := by
    rw [encodeFields_names]
    decide
  have hfind := foldl_setCol_find hs (encodeFields row)
    (List.replicate hs.length (.str "")) n v i hmem hnd hi (by simp)
  unfold getCell encodeRow
  rw [hi]
  dsimp only
  rw [List.getD_eq_getElem?_getD, hfind]
  rfl

/-- Decoding a string cell recovers the string. -/
theorem jsCellOrEmptyStr_str (s : String) : jsCellOrEmptyStr (.str s) = s := by
  by_cases h : s = "" <;> simp [jsCellOrEmptyStr, jsTruthy, jsToString, h]

/-! ## Claim about the row codec -/

/-- C9: row codec round trip — decoding (the `getAllRows` cell-to-field
mapping) the raw row produced by encoding (the `syncApps` header-indexed
column layout) under any header schema containing all thirteen columns
recovers the original row. -/
theorem decode_encode_roundtrip (headers : List String) (row : AppRow)
    (h : ∀ c ∈ columnNames, c ∈ headers) :
    decodeRow headers (encodeRow headers row) = row := by
  have hE := getCell_encodeRow headers row colEnabled (.bool row.enabled)
    (by simp [encodeFields]) (h _ (by simp [columnNames]))
  have hI := getCell_encodeRow headers row colID (.str row.id)
    (by simp [encodeFields]) (h _ (by simp [columnNames]))
  have hN := getCell_encodeRow headers row colName (.str row.name)
    (by simp [encodeFields]) (h _ (by simp [columnNames]))
  have hD := getCell_encodeRow headers row colDescription (.str row.description)
    (by simp [encodeFields]) (h _ (by simp [columnNames]))
  have hS := getCell_encodeRow headers row colAPISecret (.str row.apiSecret)
    (by simp [encodeFields]) (h _ (by simp [columnNames]))
  have hM := getCell_encodeRow headers row colCronMinutes (.str row.cronMinutes)
    (by simp [encodeFields]) (h _ (by simp [columnNames]))
  have hH := getCell_encodeRow headers row colCronHours (.str row.cronHours)
    (by simp [encodeFields]) (h _ (by simp [columnNames]))
  have hDm := getCell_encodeRow headers row colCronDayOfMonth (.str row.cronDayOfMonth)
    (by simp [encodeFields]) (h _ (by simp [columnNames]))
  have hMo := getCell_encodeRow headers row colCronMonth (.str row.cronMonth)
    (by simp [encodeFields]) (h _ (by simp [columnNames]))
  have hDw := getCell_encodeRow headers row colCronDayOfWeek (.str row.cronDayOfWeek)
    (by simp [encodeFields]) (h _ (by simp [columnNames]))
  have hA := getCell_encodeRow headers row colArgs (.str row.args)
    (by simp [encodeFields]) (h _ (by simp [columnNames]))
  have hLs := getCell_encodeRow headers row colLastSync (.str row.lastSync)
    (by simp [encodeFields]) (h _ (by simp [columnNames]))
  have hLr := getCell_encodeRow headers row colLastRun (.str row.lastRun)
    (by simp [encodeFields]) (h _ (by simp [columnNames]))
  unfold decodeRow
  rw [hE, hI, hN, hD, hS, hM, hH, hDm, hMo, hDw, hA, hLs, hLr]
  simp only [jsCellOrEmptyStr_str]
  rfl

/-- Witness for C9 at a concrete row and the canonical header order. -/
theorem decode_encode_roundtrip_witness :
    decodeRow columnNames (encodeRow columnNames rowA1) = rowA1 :=
  decode_encode_roundtrip columnNames rowA1 fun _ hc => hc

/-! ## Scheduler loop lemmas -/

/-- The scheduler loop processes row segments independently: its event trace
over a concatenation is the concatenation of the traces, so no row's outcome
can cut processing of the rows after it. -/
theorem runCronRows_append {π : Type} (jsonParse : String → Option π)
    (emptyObj : π) (execOk : ExecCall π → Bool) (now : JsDate) (runTime : String)
    (xs ys : List AppRow) :
    runCronRows jsonParse emptyObj execOk now runTime (xs ++ ys) =
      runCronRows jsonParse emptyObj execOk now runTime xs ++
        runCronRows jsonParse emptyObj execOk now runTime ys := by
  induction xs with
  | nil => rfl
  | cons r rest ih =>
    rw [List.cons_append]
    simp only [runCronRows]
    rw [ih]
    by_cases h1 : r.enabled = false
    · rw [if_pos h1, if_pos h1]
    · rw [if_neg h1, if_neg h1]
      by_cases h2 : isCronMatch now r = true
      · rw [if_pos h2, if_pos h2]
        cases hp : argsPayload jsonParse emptyObj r with
        | none => rfl
        | some inputs =>
          dsimp only
          by_cases h3 : execOk (execCallFor r inputs) = true
          · rw [if_pos h3, if_pos h3]
            simp
          · rw [if_neg h3, if_neg h3]
            simp
      · rw [if_neg h2, if_neg h2]

/-- The scheduler records `lastRun` for a row exactly when the row is enabled,
due, its args produce a payload and the execution call succeeds. -/
theorem runCronRows_single_record {π : Type} (jsonParse : String → Option π)
    (emptyObj : π) (execOk : ExecCall π → Bool) (now : JsDate) (runTime : String)
    (r : AppRow) :
    CronEvent.recordLastRun r.id runTime ∈
        runCronRows jsonParse emptyObj execOk now runTime [r] ↔
      (r.enabled = true ∧ isCronMatch now r = true ∧
        ∃ p : π, argsPayload jsonParse emptyObj r = some p ∧
          execOk (execCallFor r p) = true) := by
  simp only [runCronRows]
  by_cases h1 : r.enabled = false
  · rw [if_pos h1]
    simp [h1]
  · rw [if_neg h1]
    have h1' : r.enabled = true := by
      cases hre : r.enabled
      · exact absurd hre h1
      · rfl
    by_cases h2 : isCronMatch now r = true
    · rw [if_pos h2]
      cases hp : argsPayload jsonParse emptyObj r with
      | none => simp [h1', h2, hp]
      | some inputs =>
        dsimp only
        by_cases h3 : execOk (execCallFor r inputs) = true
        · rw [if_pos h3]
          simp [h1', h2, hp, h3]
        · rw [if_neg h3]
          simp [h1', h2, hp, h3]
    · rw [if_neg h2]
      simp [h2]

/-! ## Claims about the scheduler loop -/

/-- C5: in the scheduler loop, one row's failure aborts only that row's
iteration — the event trace of any row list splits as the concatenation of
the per-segment traces, so every subsequent row is still evaluated — and
`lastRun` is recorded for a row iff that row is enabled, due, its args parse,
and its execution call returned success. -/
theorem cron_loop_row_isolation {π : Type} (jsonParse : String → Option π)
    (emptyObj : π) (execOk : ExecCall π → Bool) (now : JsDate)
    (runTime : String) :
    (∀ xs ys : List AppRow,
      runCronRows jsonParse emptyObj execOk now runTime (xs ++ ys) =
        runCronRows jsonParse emptyObj execOk now runTime xs ++
          runCronRows jsonParse emptyObj execOk now runTime ys) ∧
    (∀ r : AppRow,
      CronEvent.recordLastRun r.id runTime ∈
          runCronRows jsonParse emptyObj execOk now runTime [r] ↔
        (r.enabled = true ∧ isCronMatch now r = true ∧
          ∃ p : π, argsPayload jsonParse emptyObj r = some p ∧
            execOk (execCallFor r p) = true)) :=
  ⟨runCronRows_append jsonParse emptyObj execOk now runTime,
    runCronRows_single_record jsonParse emptyObj execOk now runTime⟩

/-- An enabled, due row with no API secret, exhibiting the failure of C6 as
stated. -/
def rowNoKey : AppRow :=
  { enabled := true, id := "a1", name := "N", description := "", apiSecret := "",
    cronMinutes := "", cronHours := "", cronDayOfMonth := "", cronMonth := "",
    cronDayOfWeek := "", args := "", lastSync := "", lastRun := "" }

/-- A concrete instant for the scheduler claims. -/
def d0 : JsDate := { minutes := 35, hours := 14, date := 23, month := 0, day := 1 }

/-- Counterexample to C6 as stated: for an enabled, due row whose
`apiSecret` is empty, the loop does not call the execution collaborator with
the triple `(row.id, row.apiSecret, payload)` — it issues the admin-side
`executeWorkflow(row.id, payload)` call instead, and no API-key call appears
in the trace. -/
theorem cron_call_triple_cex :
    rowNoKey.enabled = true ∧ isCronMatch d0 rowNoKey = true ∧
      runCronRows (fun _ => none) () (fun _ => true) d0 "T" [rowNoKey] =
        [CronEvent.exec (ExecCall.admin "a1" ()),
          CronEvent.recordLastRun "a1" "T"] ∧
      (runCronRows (fun _ => none) () (fun _ => true) d0 "T" [rowNoKey]).all
        (fun e => match e with
          | CronEvent.exec (ExecCall.withKey _ _ _ _ _) => false
          | _ => true) = true := by
  decide

/-- C6 (amended): for every enabled row whose schedule matches the instant,
if the row's args produce a payload (parsing them when non-empty, or the
empty object `\x7b\x7d` otherwise), the loop issues exactly one execution
request — `executeWorkflowWithApiKey(row.id, row.apiSecret, payload,
'blocking', 'cron-job-' + row.id)` when `apiSecret` is non-empty, and the
admin-credential `executeWorkflow(row.id, payload)` when it is empty —
followed by the `lastRun` write iff the request succeeds; if the args fail to
parse, no execution request is made for that row. -/
theorem cron_call_shape {π : Type} (jsonParse : String → Option π)
    (emptyObj : π) (execOk : ExecCall π → Bool) (now : JsDate)
    (runTime : String) (r : AppRow) (h1 : r.enabled = true)
    (h2 : isCronMatch now r = true) :
    (∀ p : π, argsPayload jsonParse emptyObj r = some p →
      runCronRows jsonParse emptyObj execOk now runTime [r] =
        CronEvent.exec (execCallFor r p) ::
          (if execOk (execCallFor r p) then
            [CronEvent.recordLastRun r.id runTime]
          else [])) ∧
    (argsPayload jsonParse emptyObj r = none →
      runCronRows jsonParse emptyObj execOk now runTime [r] = []) ∧
    (∀ p : π, r.apiSecret ≠ "" →
      execCallFor r p =
        ExecCall.withKey r.id r.apiSecret p "blocking" ("cron-job-" ++ r.id)) ∧
    (∀ p : π, r.apiSecret = "" → execCallFor r p = ExecCall.admin r.id p) := by
  have h1f : ¬r.enabled = false := by rw [h1]; simp
  refine ⟨?_, ?_, ?_, ?_⟩
  · intro p hp
    simp only [runCronRows]
    rw [if_neg h1f, if_pos h2, hp]
  · intro hp
    simp only [runCronRows]
    rw [if_neg h1f, if_pos h2, hp]
  · intro p hsec
    unfold execCallFor
    rw [if_pos hsec]
  · intro p hsec
    unfold execCallFor
    rw [if_neg (by simp [hsec])]

/-- An enabled, due row with an API secret, used to witness the amended C6. -/
def rowWithKey : AppRow :=
  { enabled := true, id := "a2", name := "N", description := "",
    apiSecret := "sec", cronMinutes := "", cronHours := "", cronDayOfMonth := "",
    cronMonth := "", cronDayOfWeek := "", args := "", lastSync := "",
    lastRun := "" }

/-- Witness for the amended C6 at a concrete due row with an API secret. -/
theorem cron_call_shape_witness :
    runCronRows (fun _ => none) () (fun _ => true) d0 "T" [rowWithKey] =
      CronEvent.exec (execCallFor rowWithKey ()) ::
        (if (fun _ => true : ExecCall Unit → Bool) (execCallFor rowWithKey ()) then
          [CronEvent.recordLastRun rowWithKey.id "T"]
        else []) :=
  (cron_call_shape (fun _ => none) () (fun _ => true) d0 "T" rowWithKey rfl
    rfl).1 () rfl

end DifyCron
